import Mathlib

/-!
Verification of the Outreach_Agent repository's core subsystems:
the email-response parser (`utils/prompt_builder.py`), the grounding
extractor (`app.py`), and the request log (`utils/logger.py`).

Strings are modelled as `List Char`; Python string operations
(`split`, `split(sep, 1)`, `strip`, `replace`, `startswith`) are
embedded as executable Lean functions with Python's semantics.
-/

set_option maxRecDepth 10000

namespace Outreach

/-- Python whitespace characters, as stripped by `str.strip()`. -/
def isPyWs (c : Char) : Bool :=
  c = ' ' || c = '\t' || c = '\n' || c = '\r' || c = '\x0b' || c = '\x0c'

/-- Python `s.strip()`: remove leading and trailing whitespace. -/
def pyStrip (s : List Char) : List Char :=
  ((s.dropWhile isPyWs).reverse.dropWhile isPyWs).reverse

/-- Python `s.split(sep, 1)` for a nonempty separator: split at the first
occurrence of `sep`; the result has one element (no occurrence) or two. -/
def pySplit1 (sep : List Char) : List Char → List (List Char)
  | [] => [[]]
  | c :: rest =>
    if sep.isPrefixOf (c :: rest) then
      [[], (c :: rest).drop sep.length]
    else
      match pySplit1 sep rest with
      | [] => [[c]]
      | p :: ps => (c :: p) :: ps

/-- Fuel-driven worker for `pySplit`: splits on every (left-to-right,
non-overlapping) occurrence of `sep`.  With `fuel ≥ s.length` and a
nonempty `sep` the fuel never runs out. -/
def pySplitAux (sep : List Char) : Nat → List Char → List (List Char)
  | 0, s => [s]
  | _ + 1, [] => [[]]
  | fuel + 1, c :: rest =>
    if sep.isPrefixOf (c :: rest) then
      [] :: pySplitAux sep fuel ((c :: rest).drop sep.length)
    else
      match pySplitAux sep fuel rest with
      | [] => [[c]]
      | p :: ps => (c :: p) :: ps

/-- Python `s.split(sep)` for a nonempty separator. -/
def pySplit (sep s : List Char) : List (List Char) :=
  pySplitAux sep s.length s

/-- Python `s.replace(old, new)`: replace every (left-to-right,
non-overlapping) occurrence of `old` by `new`. -/
def replaceAll (old new s : List Char) : List Char :=
  List.intercalate new (pySplit old s)

/-- Does `sep` occur as a contiguous substring of `s`? -/
def occursIn (sep : List Char) : List Char → Bool
  | [] => sep.isEmpty
  | c :: rest => sep.isPrefixOf (c :: rest) || occursIn sep rest

/-- The primary block delimiter `---EMAIL` used by `parse_email_response`. -/
def emailSep : List Char := "---EMAIL".data

/-- The subject marker `SUBJECT:` of the primary parsing strategy. -/
def subjMarker : List Char := "SUBJECT:".data

/-- The fallback delimiter `Subject:` of the fallback parsing strategy. -/
def fallbackSep : List Char := "Subject:".data

/-- The newline separator used by `split('\n', 1)`. -/
def nl : List Char := ['\n']

/-- One parsed email: `{'subject': ..., 'body': ...}`. -/
structure EmailRecord where
  subject : List Char
  body : List Char
deriving DecidableEq, Repr

/-- The body of the primary-strategy loop of `parse_email_response`,
for one segment produced by splitting on `---EMAIL`.  `none` models the
`continue` taken when the stripped segment has no second line. -/
def parseSection (s : List Char) : Option EmailRecord :=
  match pySplit1 nl (pyStrip s) with
  | [] => none
  | [_] => none
  | _ :: l1 :: _ =>
    let content := pyStrip l1
    if subjMarker.isPrefixOf content then
      match pySplit1 nl content with
      | [] => some ⟨[], []⟩
      | [p0] => some ⟨pyStrip (replaceAll subjMarker [] p0), []⟩
      | p0 :: p1 :: _ => some ⟨pyStrip (replaceAll subjMarker [] p0), pyStrip p1⟩
    else
      some ⟨[], content⟩

/-- The body of the fallback-strategy loop of `parse_email_response`,
for one piece produced by splitting on `Subject:`. -/
def fallbackRecord (part : List Char) : EmailRecord :=
  match pySplit1 nl (pyStrip part) with
  | [] => ⟨[], []⟩
  | [l0] => ⟨pyStrip l0, []⟩
  | l0 :: l1 :: _ => ⟨pyStrip l0, pyStrip l1⟩

/-- The record list of `parse_email_response` before the final `[:3]`
truncation: the primary strategy's records, or the fallback strategy's
records when the primary strategy found none. -/
def parsePrimaryOrFallback (t : List Char) : List EmailRecord :=
  if (((pySplit emailSep t).tail).filterMap parseSection).isEmpty then
    ((pySplit fallbackSep t).tail).map fallbackRecord
  else
    ((pySplit emailSep t).tail).filterMap parseSection

/-- `parse_email_response` from `utils/prompt_builder.py`: split on
`---EMAIL`, parse each segment after the first; if that yields nothing,
split on `Subject:` instead; return at most the first three records. -/
def parse_email_response (t : List Char) : List EmailRecord :=
  (parsePrimaryOrFallback t).take 3

/-! ### Lemmas about the embedded string primitives -/

theorem isPrefixOf_iff_append (a b : List Char) :
    a.isPrefixOf b = true ↔ ∃ t, b = a ++ t := by
  induction a generalizing b with
  | nil => simp [List.isPrefixOf]
  | cons x xs ih =>
    cases b with
    | nil => simp [List.isPrefixOf]
    | cons y ys =>
      simp only [List.isPrefixOf, Bool.and_eq_true, beq_iff_eq, ih, List.cons_append,
        List.cons.injEq]
      constructor
      · rintro ⟨hxy, t, ht⟩
        exact ⟨t, hxy.symm, ht⟩
      · rintro ⟨t, hxy, ht⟩
        exact ⟨hxy.symm, t, ht⟩

theorem pySplit1_shape (sep s : List Char) :
    (∃ a, pySplit1 sep s = [a]) ∨ ∃ a b, pySplit1 sep s = [a, b] := by
  induction s with
  | nil => exact Or.inl ⟨[], rfl⟩
  | cons c rest ih =>
    cases hp : sep.isPrefixOf (c :: rest) with
    | true => exact Or.inr ⟨[], (c :: rest).drop sep.length, by simp [pySplit1, hp]⟩
    | false =>
      rcases ih with ⟨a, ha⟩ | ⟨a, b, hab⟩
      · exact Or.inl ⟨c :: a, by simp [pySplit1, hp, ha]⟩
      · exact Or.inr ⟨c :: a, b, by simp [pySplit1, hp, hab]⟩

theorem pySplitAux_congr (sep : List Char) (hsep : sep ≠ []) :
    ∀ f1 f2 s, s.length ≤ f1 → s.length ≤ f2 →
      pySplitAux sep f1 s = pySplitAux sep f2 s := by
  intro f1
  induction f1 with
  | zero =>
    intro f2 s h1 _
    have hs : s = [] := List.length_eq_zero.mp (Nat.le_zero.mp h1)
    subst hs
    cases f2 <;> rfl
  | succ f ih =>
    intro f2 s h1 h2
    cases s with
    | nil => cases f2 <;> rfl
    | cons c rest =>
      cases f2 with
      | zero => simp at h2
      | succ g =>
        rw [pySplitAux, pySplitAux]
        cases hp : sep.isPrefixOf (c :: rest) with
        | true =>
          simp only [hp, if_true]
          have hlen : ((c :: rest).drop sep.length).length ≤ f := by
            rw [List.length_drop]
            have : 1 ≤ sep.length := by
              cases sep with
              | nil => exact absurd rfl hsep
              | cons _ _ => simp
            simp only [List.length_cons] at h1 ⊢
            omega
          have hlen2 : ((c :: rest).drop sep.length).length ≤ g := by
            rw [List.length_drop]
            have : 1 ≤ sep.length := by
              cases sep with
              | nil => exact absurd rfl hsep
              | cons _ _ => simp
            simp only [List.length_cons] at h2 ⊢
            omega
          rw [ih _ _ hlen hlen2]
        | false =>
          simp only [hp, if_false, Bool.false_eq_true]
          have hr1 : rest.length ≤ f := by simp only [List.length_cons] at h1; omega
          have hr2 : rest.length ≤ g := by simp only [List.length_cons] at h2; omega
          rw [ih _ _ hr1 hr2]

theorem pySplit_nil (sep : List Char) : pySplit sep [] = [[]] := rfl

theorem pySplit_pos (sep s : List Char) (hsep : sep ≠ []) (hzs : s ≠ [])
    (h : sep.isPrefixOf s = true) :
    pySplit sep s = [] :: pySplit sep (s.drop sep.length) := by
  cases s with
  | nil => exact absurd rfl hzs
  | cons c rest =>
    show pySplitAux sep (c :: rest).length (c :: rest) = _
    simp only [List.length_cons]
    rw [pySplitAux]
    simp only [h, if_true]
    have h1 : 1 ≤ sep.length := by
      cases sep with
      | nil => exact absurd rfl hsep
      | cons _ _ => simp
    have := pySplitAux_congr sep hsep rest.length ((c :: rest).drop sep.length).length
      ((c :: rest).drop sep.length)
      (by rw [List.length_drop]; simp only [List.length_cons]; omega) (Nat.le_refl _)
    rw [this]
    rfl

theorem pySplit_neg (sep : List Char) (c : Char) (rest : List Char)
    (h : sep.isPrefixOf (c :: rest) = false) :
    pySplit sep (c :: rest) =
      match pySplit sep rest with
      | [] => [[c]]
      | p :: ps => (c :: p) :: ps := by
  show pySplitAux sep (c :: rest).length (c :: rest) = _
  simp only [List.length_cons]
  rw [pySplitAux]
  simp only [h, if_false, Bool.false_eq_true]
  rfl

theorem occursIn_cons (sep : List Char) (c : Char) (rest : List Char) :
    occursIn sep (c :: rest) = (sep.isPrefixOf (c :: rest) || occursIn sep rest) := rfl

theorem pySplit_no_occur (sep s : List Char)
    (hs : occursIn sep s = false) : pySplit sep s = [s] := by
  induction s with
  | nil => exact pySplit_nil sep
  | cons c rest ih =>
    rw [occursIn_cons, Bool.or_eq_false_iff] at hs
    rw [pySplit_neg sep c rest hs.1, ih hs.2]

/-- `sep` has no nontrivial border: no proper prefix of `sep` is also a
proper suffix.  For such separators an occurrence of `sep` cannot
straddle the boundary of `a ++ sep ++ b`. -/
def borderFree (sep : List Char) : Prop :=
  ∀ k ∈ List.range sep.length, 0 < k → sep.drop k ≠ sep.take (sep.length - k)

theorem not_prefix_across (sep a b : List Char) (hsep : sep ≠ [])
    (hbf : borderFree sep) (ha : occursIn sep a = false) (hne : a ≠ []) :
    sep.isPrefixOf (a ++ sep ++ b) = false := by
  cases hx : sep.isPrefixOf (a ++ sep ++ b) with
  | false => rfl
  | true =>
    exfalso
    obtain ⟨t, ht⟩ := (isPrefixOf_iff_append sep (a ++ sep ++ b)).mp hx
    have ht' : a ++ (sep ++ b) = sep ++ t := by rw [← List.append_assoc]; exact ht
    by_cases hlen : sep.length ≤ a.length
    · -- the occurrence would lie entirely inside `a`
      have htake : (a ++ (sep ++ b)).take sep.length = a.take sep.length := by
        rw [List.take_append_eq_append_take, Nat.sub_eq_zero_of_le hlen,
          List.take_zero, List.append_nil]
      have htake2 : (sep ++ t).take sep.length = sep := List.take_left sep t
      have hsa : a.take sep.length = sep := by
        rw [← htake, ht', htake2]
      have hpa : sep.isPrefixOf a = true := by
        rw [isPrefixOf_iff_append]
        refine ⟨a.drop sep.length, ?_⟩
        conv_lhs => rw [← List.take_append_drop sep.length a]
        rw [hsa]
      cases a with
      | nil => simp at hlen; exact hsep hlen
      | cons c r =>
        rw [occursIn_cons, hpa, Bool.true_or] at ha
        exact Bool.true_eq_false.mp ha
    · -- the occurrence would straddle the boundary, forcing a border of `sep`
      push_neg at hlen
      set k := a.length with hk
      have h0k : 0 < k := by
        cases a with
        | nil => exact absurd rfl hne
        | cons _ _ => simp [hk]
      -- drop k of both sides of ht'
      have hdrop : sep ++ b = sep.drop k ++ t := by
        have h1 : (a ++ (sep ++ b)).drop k = sep ++ b := List.drop_left a (sep ++ b)
        have h2 : (sep ++ t).drop k = sep.drop k ++ t := by
          rw [List.drop_append_eq_append_drop, Nat.sub_eq_zero_of_le (Nat.le_of_lt hlen),
            List.drop_zero]
        rw [ht', h2] at h1
        exact h1.symm
      -- take (sep.length - k) of both sides of hdrop
      have hborder : sep.drop k = sep.take (sep.length - k) := by
        have h3 : (sep ++ b).take (sep.length - k) = sep.take (sep.length - k) := by
          rw [List.take_append_eq_append_take, Nat.sub_eq_zero_of_le (Nat.sub_le _ _),
            List.take_zero, List.append_nil]
        have h4 : (sep.drop k ++ t).take (sep.length - k) = sep.drop k := by
          have hdk : (sep.drop k).length = sep.length - k := List.length_drop k sep
          rw [← hdk, List.take_left]
        rw [hdrop, h4] at h3
        exact h3
      exact hbf k (List.mem_range.mpr hlen) h0k hborder

theorem pySplit_boundary (sep a b : List Char) (hsep : sep ≠ [])
    (hbf : borderFree sep) (ha : occursIn sep a = false) :
    pySplit sep (a ++ sep ++ b) = a :: pySplit sep b := by
  induction a with
  | nil =>
    simp only [List.nil_append]
    have h1 : sep.isPrefixOf (sep ++ b) = true :=
      (isPrefixOf_iff_append sep (sep ++ b)).mpr ⟨b, rfl⟩
    have hne : sep ++ b ≠ [] := by
      cases sep with
      | nil => exact absurd rfl hsep
      | cons _ _ => simp
    rw [pySplit_pos sep (sep ++ b) hsep hne h1, List.drop_left]
  | cons c a' ih =>
    rw [occursIn_cons, Bool.or_eq_false_iff] at ha
    have h0 : sep.isPrefixOf ((c :: a') ++ sep ++ b) = false :=
      not_prefix_across sep (c :: a') b hsep hbf
        (by rw [occursIn_cons, Bool.or_eq_false_iff]; exact ha) (by simp)
    have h0' : sep.isPrefixOf (c :: (a' ++ sep ++ b)) = false := by
      simpa using h0
    rw [List.cons_append, List.cons_append, pySplit_neg sep c (a' ++ sep ++ b) h0']
    rw [ih ha.2]

theorem borderFree_emailSep : borderFree emailSep := by
  unfold borderFree
  decide

theorem borderFree_fallbackSep : borderFree fallbackSep := by
  unfold borderFree
  decide

theorem emailSep_ne_nil : emailSep ≠ [] := by decide

theorem fallbackSep_ne_nil : fallbackSep ≠ [] := by decide

theorem subjMarker_ne_nil : subjMarker ≠ [] := by decide

/-! ### Spec-side description of one well-formed email block

These definitions follow the specification's words for a block: after
discarding the first line of the stripped segment, the remainder
(trimmed) is the block content; its `SUBJECT:` line with the marker
removed (and trimmed) is the subject, and everything after that line
(trimmed) is the body. -/

/-- The content of a block segment: the stripped remainder after the
segment's first line. -/
def specContent (s : List Char) : List Char :=
  pyStrip ((pySplit1 nl (pyStrip s)).getD 1 [])

/-- The `SUBJECT:` line of a block segment. -/
def specSubjectLine (s : List Char) : List Char :=
  (pySplit1 nl (specContent s)).headD []

/-- Spec reading of the subject: the SUBJECT line with the leading
marker removed, trimmed. -/
def specSubject (s : List Char) : List Char :=
  pyStrip ((specSubjectLine s).drop subjMarker.length)

/-- Spec reading of the body: the remaining segment text after the
SUBJECT line, trimmed. -/
def specBody (s : List Char) : List Char :=
  pyStrip ((pySplit1 nl (specContent s)).getD 1 [])

/-- A well-formed block segment: the stripped segment has a line after
the `---EMAIL n---` header, the stripped remainder starts with the
literal marker `SUBJECT:`, and the rest of the SUBJECT line does not
contain the marker again. -/
def wellFormedBlock (s : List Char) : Bool :=
  (pySplit1 nl (pyStrip s)).length == 2 &&
  subjMarker.isPrefixOf (specContent s) &&
  !occursIn subjMarker ((specSubjectLine s).drop subjMarker.length)

theorem replaceAll_marker (m rest : List Char) (hm : m ≠ [])
    (hno : occursIn m rest = false) :
    replaceAll m [] (m ++ rest) = rest := by
  unfold replaceAll
  have h1 : m.isPrefixOf (m ++ rest) = true :=
    (isPrefixOf_iff_append m (m ++ rest)).mpr ⟨rest, rfl⟩
  have hne : m ++ rest ≠ [] := by
    cases m with
    | nil => exact absurd rfl hm
    | cons _ _ => simp
  rw [pySplit_pos m (m ++ rest) hm hne h1, List.drop_left,
    pySplit_no_occur m rest hno]
  simp [List.intercalate, List.intersperse]

theorem marker_prefix_split1_head (m s : List Char)
    (hm : ∀ c ∈ m, c ≠ '\n') (hp : m.isPrefixOf s = true) :
    m.isPrefixOf ((pySplit1 nl s).headD []) = true := by
  induction m generalizing s with
  | nil =>
    cases hx : (pySplit1 nl s).headD [] with
    | nil => rfl
    | cons _ _ => rfl
  | cons d m' ih =>
    cases s with
    | nil => simp [List.isPrefixOf] at hp
    | cons e s' =>
      have hde : d = e ∧ m'.isPrefixOf s' = true := by
        simpa [List.isPrefixOf] using hp
      have hennl : e ≠ '\n' := by
        intro h
        exact (hm d (by simp)) (hde.1.trans h)
      have hcond : nl.isPrefixOf (e :: s') = false := by
        simp [nl, List.isPrefixOf]
        intro h
        exact absurd h.symm hennl
      have ihp : m'.isPrefixOf ((pySplit1 nl s').headD []) = true :=
        ih s' (fun c hc => hm c (List.mem_cons_of_mem d hc)) hde.2
      rcases pySplit1_shape nl s' with ⟨a, hsh⟩ | ⟨a, b, hsh⟩
      · rw [hsh] at ihp
        simp only [pySplit1, hcond, if_false, Bool.false_eq_true, hsh]
        simpa [List.isPrefixOf, hde.1] using ihp
      · rw [hsh] at ihp
        simp only [pySplit1, hcond, if_false, Bool.false_eq_true, hsh]
        simpa [List.isPrefixOf, hde.1] using ihp

theorem subjMarker_no_newline : ∀ c ∈ subjMarker, c ≠ '\n' := by decide

/-- Under well-formedness, the code's per-segment parse agrees with the
spec's description of subject and body. -/
theorem parseSection_wellFormed (s : List Char) (h : wellFormedBlock s = true) :
    parseSection s = some ⟨specSubject s, specBody s⟩ := by
  unfold wellFormedBlock at h
  rw [Bool.and_eq_true, Bool.and_eq_true] at h
  obtain ⟨⟨hlen, hmark⟩, hnomore⟩ := h
  rcases pySplit1_shape nl (pyStrip s) with ⟨a, hsh⟩ | ⟨a, b, hsh⟩
  · rw [hsh] at hlen; simp at hlen
  · have hcontent : specContent s = pyStrip b := by
      unfold specContent; rw [hsh]; rfl
    rw [hcontent] at hmark
    have hmarkp0 : subjMarker.isPrefixOf ((pySplit1 nl (pyStrip b)).headD []) = true :=
      marker_prefix_split1_head subjMarker (pyStrip b) subjMarker_no_newline hmark
    unfold parseSection
    rw [hsh]
    simp only [hmark, if_true]
    rcases pySplit1_shape nl (pyStrip b) with ⟨p0, hsh2⟩ | ⟨p0, p1, hsh2⟩
    · -- SUBJECT line with no following newline: body is empty
      rw [hsh2]
      have hline : specSubjectLine s = p0 := by
        unfold specSubjectLine; rw [hcontent, hsh2]; rfl
      rw [hsh2] at hmarkp0
      simp only [List.headD] at hmarkp0
      obtain ⟨t, ht⟩ := (isPrefixOf_iff_append subjMarker p0).mp hmarkp0
      have htval : t = p0.drop subjMarker.length := by
        rw [ht, List.drop_left]
      rw [hline] at hnomore
      rw [Bool.not_eq_true'] at hnomore
      have hnot : occursIn subjMarker t = false := by
        rw [htval]; exact hnomore
      have hrepl : replaceAll subjMarker [] p0 = p0.drop subjMarker.length := by
        conv_lhs => rw [ht]
        rw [replaceAll_marker subjMarker t subjMarker_ne_nil hnot]
        exact htval
      simp only [hrepl]
      unfold specSubject specBody
      rw [hline, hcontent, hsh2]
      rfl
    · rw [hsh2]
      have hline : specSubjectLine s = p0 := by
        unfold specSubjectLine; rw [hcontent, hsh2]; rfl
      rw [hsh2] at hmarkp0
      simp only [List.headD] at hmarkp0
      obtain ⟨t, ht⟩ := (isPrefixOf_iff_append subjMarker p0).mp hmarkp0
      have htval : t = p0.drop subjMarker.length := by
        rw [ht, List.drop_left]
      rw [hline] at hnomore
      rw [Bool.not_eq_true'] at hnomore
      have hnot : occursIn subjMarker t = false := by
        rw [htval]; exact hnomore
      have hrepl : replaceAll subjMarker [] p0 = p0.drop subjMarker.length := by
        conv_lhs => rw [ht]
        rw [replaceAll_marker subjMarker t subjMarker_ne_nil hnot]
        exact htval
      simp only [hrepl]
      unfold specSubject specBody
      rw [hline, hcontent, hsh2]
      rfl

/-! ### Splitting a multi-block response -/

theorem pySplit_boundary_assoc (sep a b : List Char) (hsep : sep ≠ [])
    (hbf : borderFree sep) (ha : occursIn sep a = false) :
    pySplit sep (a ++ (sep ++ b)) = a :: pySplit sep b := by
  rw [← List.append_assoc]
  exact pySplit_boundary sep a b hsep hbf ha

theorem pySplit_email_three (p s1 s2 s3 : List Char)
    (hp : occursIn emailSep p = false) (h1 : occursIn emailSep s1 = false)
    (h2 : occursIn emailSep s2 = false) (h3 : occursIn emailSep s3 = false) :
    pySplit emailSep (p ++ emailSep ++ s1 ++ emailSep ++ s2 ++ emailSep ++ s3) =
      [p, s1, s2, s3] := by
  simp only [List.append_assoc]
  rw [pySplit_boundary_assoc emailSep p _ emailSep_ne_nil borderFree_emailSep hp,
    pySplit_boundary_assoc emailSep s1 _ emailSep_ne_nil borderFree_emailSep h1,
    pySplit_boundary_assoc emailSep s2 _ emailSep_ne_nil borderFree_emailSep h2,
    pySplit_no_occur emailSep s3 h3]

theorem pySplit_email_five (p s1 s2 s3 s4 s5 : List Char)
    (hp : occursIn emailSep p = false) (h1 : occursIn emailSep s1 = false)
    (h2 : occursIn emailSep s2 = false) (h3 : occursIn emailSep s3 = false)
    (h4 : occursIn emailSep s4 = false) (h5 : occursIn emailSep s5 = false) :
    pySplit emailSep
        (p ++ emailSep ++ s1 ++ emailSep ++ s2 ++ emailSep ++ s3 ++ emailSep ++ s4 ++
          emailSep ++ s5) =
      [p, s1, s2, s3, s4, s5] := by
  simp only [List.append_assoc]
  rw [pySplit_boundary_assoc emailSep p _ emailSep_ne_nil borderFree_emailSep hp,
    pySplit_boundary_assoc emailSep s1 _ emailSep_ne_nil borderFree_emailSep h1,
    pySplit_boundary_assoc emailSep s2 _ emailSep_ne_nil borderFree_emailSep h2,
    pySplit_boundary_assoc emailSep s3 _ emailSep_ne_nil borderFree_emailSep h3,
    pySplit_boundary_assoc emailSep s4 _ emailSep_ne_nil borderFree_emailSep h4,
    pySplit_no_occur emailSep s5 h5]

/-- C1: for an input consisting of a preamble and exactly three
well-formed `---EMAIL n---` / `SUBJECT:` blocks, `parse_email_response`
returns exactly three records, in order, with each subject equal to the
block's SUBJECT line with the marker removed and trimmed, and each body
the remaining block text trimmed. -/
theorem parse_three_wellFormed_blocks
    (p s1 s2 s3 : List Char)
    (hp : occursIn emailSep p = false) (h1 : occursIn emailSep s1 = false)
    (h2 : occursIn emailSep s2 = false) (h3 : occursIn emailSep s3 = false)
    (w1 : wellFormedBlock s1 = true) (w2 : wellFormedBlock s2 = true)
    (w3 : wellFormedBlock s3 = true) :
    parse_email_response (p ++ emailSep ++ s1 ++ emailSep ++ s2 ++ emailSep ++ s3) =
      [⟨specSubject s1, specBody s1⟩, ⟨specSubject s2, specBody s2⟩,
        ⟨specSubject s3, specBody s3⟩] := by
  unfold parse_email_response parsePrimaryOrFallback
  rw [pySplit_email_three p s1 s2 s3 hp h1 h2 h3]
  simp only [List.tail_cons, List.filterMap_cons, parseSection_wellFormed s1 w1,
    parseSection_wellFormed s2 w2, parseSection_wellFormed s3 w3, List.filterMap_nil]
  rfl

/-- C9: `parse_email_response` always returns at most three records,
and an input with five well-formed email blocks yields exactly the
first three, in order. -/
theorem parse_truncates_to_three
    (t p s1 s2 s3 s4 s5 : List Char)
    (hp : occursIn emailSep p = false) (h1 : occursIn emailSep s1 = false)
    (h2 : occursIn emailSep s2 = false) (h3 : occursIn emailSep s3 = false)
    (h4 : occursIn emailSep s4 = false) (h5 : occursIn emailSep s5 = false)
    (w1 : wellFormedBlock s1 = true) (w2 : wellFormedBlock s2 = true)
    (w3 : wellFormedBlock s3 = true) (w4 : wellFormedBlock s4 = true)
    (w5 : wellFormedBlock s5 = true) :
    (parse_email_response t).length ≤ 3 ∧
    parse_email_response
        (p ++ emailSep ++ s1 ++ emailSep ++ s2 ++ emailSep ++ s3 ++ emailSep ++ s4 ++
          emailSep ++ s5) =
      [⟨specSubject s1, specBody s1⟩, ⟨specSubject s2, specBody s2⟩,
        ⟨specSubject s3, specBody s3⟩] := by
  constructor
  · unfold parse_email_response
    exact List.length_take_le 3 _
  · unfold parse_email_response parsePrimaryOrFallback
    rw [pySplit_email_five p s1 s2 s3 s4 s5 hp h1 h2 h3 h4 h5]
    simp only [List.tail_cons, List.filterMap_cons, parseSection_wellFormed s1 w1,
      parseSection_wellFormed s2 w2, parseSection_wellFormed s3 w3,
      parseSection_wellFormed s4 w4, parseSection_wellFormed s5 w5, List.filterMap_nil]
    rfl

/-! ### The fallback strategy -/

theorem intercalate_cons_cons (sep a b : List Char) (l : List (List Char)) :
    List.intercalate sep (a :: b :: l) = a ++ sep ++ List.intercalate sep (b :: l) := by
  simp [List.intercalate, List.intersperse, List.append_assoc]

theorem pySplit_fallback_pieces :
    ∀ (qs : List (List Char)) (p : List Char),
      occursIn fallbackSep p = false →
      (∀ q ∈ qs, occursIn fallbackSep q = false) → qs ≠ [] →
      pySplit fallbackSep (p ++ fallbackSep ++ List.intercalate fallbackSep qs) =
        p :: qs := by
  intro qs
  induction qs with
  | nil =>
    intro p _ _ hne
    exact absurd rfl hne
  | cons q qs' ih =>
    intro p hp hqs _
    cases qs' with
    | nil =>
      have hq : List.intercalate fallbackSep [q] = q := by
        simp [List.intercalate, List.intersperse]
      rw [hq, List.append_assoc,
        pySplit_boundary_assoc fallbackSep p q fallbackSep_ne_nil borderFree_fallbackSep hp,
        pySplit_no_occur fallbackSep q (hqs q (by simp))]
    | cons q2 qs'' =>
      rw [intercalate_cons_cons, List.append_assoc,
        pySplit_boundary_assoc fallbackSep p _ fallbackSep_ne_nil borderFree_fallbackSep hp]
      have hih := ih q (hqs q (by simp))
        (fun x hx => hqs x (List.mem_cons_of_mem q hx)) (by simp)
      rw [hih]

/-- C5: when the input contains no `---EMAIL` at all and decomposes as a
preamble followed by `Subject:`-delimited pieces, `parse_email_response`
falls back to splitting on `Subject:`, producing for each piece after
the first the record built from the piece's first line (trimmed) and
its remainder (trimmed). -/
theorem parse_fallback_pieces (p : List Char) (qs : List (List Char))
    (hemail :
      occursIn emailSep (p ++ fallbackSep ++ List.intercalate fallbackSep qs) = false)
    (hp : occursIn fallbackSep p = false)
    (hqs : ∀ q ∈ qs, occursIn fallbackSep q = false) (hne : qs ≠ []) :
    parse_email_response (p ++ fallbackSep ++ List.intercalate fallbackSep qs) =
      (qs.map fallbackRecord).take 3 := by
  unfold parse_email_response parsePrimaryOrFallback
  rw [pySplit_no_occur emailSep _ hemail]
  simp only [List.tail_cons, List.filterMap_nil, List.isEmpty_nil, if_true]
  rw [pySplit_fallback_pieces qs p hp hqs hne]
  simp only [List.tail_cons]

/-! ### Exception-freedom of the parser

`parse_email_responseChecked` re-embeds `parse_email_response` with
every Python subscript (`lines[0]`, `lines[1]`, `parts[0]`, `parts[1]`)
modelled as a fallible lookup: an out-of-bounds access — a would-be
`IndexError` — aborts with `none`.  Proving it always returns `some`
shows the source's length guards make every subscript safe. -/

/-- Sequence fallible computations over a list, aborting on failure. -/
def mapMOpt (f : α → Option β) : List α → Option (List β)
  | [] => some []
  | x :: xs =>
    match f x, mapMOpt f xs with
    | some y, some ys => some (y :: ys)
    | _, _ => none

/-- `parseSection` with fallible subscripts.  The outer `Option` is the
would-be exception; the inner `Option` models `continue`. -/
def parseSectionChecked (s : List Char) : Option (Option EmailRecord) :=
  if (pySplit1 nl (pyStrip s)).length < 2 then
    some none
  else
    match (pySplit1 nl (pyStrip s))[1]? with
    | none => none
    | some l1 =>
      if subjMarker.isPrefixOf (pyStrip l1) then
        match (pySplit1 nl (pyStrip l1))[0]? with
        | none => none
        | some p0 =>
          if 1 < (pySplit1 nl (pyStrip l1)).length then
            match (pySplit1 nl (pyStrip l1))[1]? with
            | none => none
            | some p1 => some (some ⟨pyStrip (replaceAll subjMarker [] p0), pyStrip p1⟩)
          else
            some (some ⟨pyStrip (replaceAll subjMarker [] p0), []⟩)
      else
        some (some ⟨[], pyStrip l1⟩)

/-- One fallback piece with fallible subscripts. -/
def fallbackPieceChecked (part : List Char) : Option EmailRecord :=
  match (pySplit1 nl (pyStrip part))[0]? with
  | none => none
  | some l0 =>
    if 1 < (pySplit1 nl (pyStrip part)).length then
      match (pySplit1 nl (pyStrip part))[1]? with
      | none => none
      | some l1 => some ⟨pyStrip l0, pyStrip l1⟩
    else
      some ⟨pyStrip l0, []⟩

/-- `parse_email_response` with fallible subscripts. -/
def parse_email_responseChecked (t : List Char) : Option (List EmailRecord) :=
  match mapMOpt parseSectionChecked ((pySplit emailSep t).tail) with
  | none => none
  | some emailOpts =>
    if (emailOpts.filterMap id).isEmpty then
      match mapMOpt fallbackPieceChecked ((pySplit fallbackSep t).tail) with
      | none => none
      | some emails2 => some (emails2.take 3)
    else
      some ((emailOpts.filterMap id).take 3)

theorem parseSectionChecked_eq (s : List Char) :
    parseSectionChecked s = some (parseSection s) := by
  unfold parseSectionChecked parseSection
  rcases pySplit1_shape nl (pyStrip s) with ⟨a, hsh⟩ | ⟨a, b, hsh⟩
  · rw [hsh]; rfl
  · rw [hsh]
    cases hmk : subjMarker.isPrefixOf (pyStrip b) with
    | false => simp [hmk]
    | true =>
      rcases pySplit1_shape nl (pyStrip b) with ⟨p0, hsh2⟩ | ⟨p0, p1, hsh2⟩
      · simp [hmk, hsh2]
      · simp [hmk, hsh2]

theorem fallbackPieceChecked_eq (part : List Char) :
    fallbackPieceChecked part = some (fallbackRecord part) := by
  unfold fallbackPieceChecked fallbackRecord
  rcases pySplit1_shape nl (pyStrip part) with ⟨a, hsh⟩ | ⟨a, b, hsh⟩
  · rw [hsh]; rfl
  · rw [hsh]; rfl

theorem mapMOpt_all_some (f : α → Option β) (g : α → β)
    (h : ∀ x, f x = some (g x)) :
    ∀ l : List α, mapMOpt f l = some (l.map g) := by
  intro l
  induction l with
  | nil => rfl
  | cons x xs ih =>
    unfold mapMOpt
    rw [h x, ih]
    rfl

theorem filterMap_id_map (f : α → Option β) :
    ∀ l : List α, (l.map f).filterMap id = l.filterMap f := by
  intro l
  induction l with
  | nil => rfl
  | cons x xs ih =>
    cases hx : f x with
    | none => simp [hx, ih]
    | some y => simp [hx, ih]

/-- C4: `parse_email_response` never raises — with every subscript
modelled as fallible, the checked parser returns `some` of the plain
parser's result on every input — and the empty input parses to the
empty record list. -/
theorem parse_never_raises :
    (∀ t : List Char,
      parse_email_responseChecked t = some (parse_email_response t)) ∧
    parse_email_response [] = [] := by
  constructor
  · intro t
    unfold parse_email_responseChecked parse_email_response parsePrimaryOrFallback
    rw [mapMOpt_all_some parseSectionChecked parseSection parseSectionChecked_eq,
      mapMOpt_all_some fallbackPieceChecked fallbackRecord fallbackPieceChecked_eq]
    simp only [filterMap_id_map]
    cases hmt : (((pySplit emailSep t).tail).filterMap parseSection).isEmpty with
    | false => simp [hmt]
    | true => simp [hmt]
  · rfl

/-! ### Concrete inputs used by the witnesses -/

def preambleA : List Char := ("Here are your emails.\n").data

def blockA : List Char := (" 1---\nSUBJECT: First angle\n\nBody one.\nMore of one.\n").data

def blockB : List Char := (" 2---\nSUBJECT: Second angle\n\nBody two.\n").data

def blockC : List Char := (" 3---\nSUBJECT: Third angle\n\nBody three.\n").data

def blockD : List Char := (" 4---\nSUBJECT: Fourth angle\n\nBody four.\n").data

def blockE : List Char := (" 5---\nSUBJECT: Fifth angle\n\nBody five.\n").data

def fbPieceA : List Char := (" A\nbodyA\n").data

def fbPieceB : List Char := (" B\nbodyB").data

theorem parse_three_wellFormed_blocks_witness :
    (occursIn emailSep preambleA = false ∧ occursIn emailSep blockA = false ∧
      occursIn emailSep blockB = false ∧ occursIn emailSep blockC = false ∧
      wellFormedBlock blockA = true ∧ wellFormedBlock blockB = true ∧
      wellFormedBlock blockC = true) ∧
    parse_email_response
        (preambleA ++ emailSep ++ blockA ++ emailSep ++ blockB ++ emailSep ++ blockC) =
      [⟨specSubject blockA, specBody blockA⟩, ⟨specSubject blockB, specBody blockB⟩,
        ⟨specSubject blockC, specBody blockC⟩] :=
  ⟨⟨by decide, by decide, by decide, by decide, by decide, by decide, by decide⟩,
    parse_three_wellFormed_blocks preambleA blockA blockB blockC (by decide) (by decide)
      (by decide) (by decide) (by decide) (by decide) (by decide)⟩

theorem parse_truncates_to_three_witness :
    (occursIn emailSep preambleA = false ∧ occursIn emailSep blockA = false ∧
      occursIn emailSep blockB = false ∧ occursIn emailSep blockC = false ∧
      occursIn emailSep blockD = false ∧ occursIn emailSep blockE = false ∧
      wellFormedBlock blockA = true ∧ wellFormedBlock blockB = true ∧
      wellFormedBlock blockC = true ∧ wellFormedBlock blockD = true ∧
      wellFormedBlock blockE = true) ∧
    ((parse_email_response preambleA).length ≤ 3 ∧
      parse_email_response
          (preambleA ++ emailSep ++ blockA ++ emailSep ++ blockB ++ emailSep ++ blockC ++
            emailSep ++ blockD ++ emailSep ++ blockE) =
        [⟨specSubject blockA, specBody blockA⟩, ⟨specSubject blockB, specBody blockB⟩,
          ⟨specSubject blockC, specBody blockC⟩]) :=
  ⟨⟨by decide, by decide, by decide, by decide, by decide, by decide, by decide,
      by decide, by decide, by decide, by decide⟩,
    parse_truncates_to_three preambleA preambleA blockA blockB blockC blockD blockE
      (by decide) (by decide) (by decide) (by decide) (by decide) (by decide) (by decide)
      (by decide) (by decide) (by decide) (by decide)⟩

theorem parse_fallback_pieces_witness :
    (occursIn emailSep
        ([] ++ fallbackSep ++ List.intercalate fallbackSep [fbPieceA, fbPieceB]) = false ∧
      occursIn fallbackSep ([] : List Char) = false ∧
      (∀ q ∈ [fbPieceA, fbPieceB], occursIn fallbackSep q = false) ∧
      ([fbPieceA, fbPieceB] : List (List Char)) ≠ []) ∧
    parse_email_response
        ([] ++ fallbackSep ++ List.intercalate fallbackSep [fbPieceA, fbPieceB]) =
      (([fbPieceA, fbPieceB].map fallbackRecord).take 3) ∧
    ([] ++ fallbackSep ++ List.intercalate fallbackSep [fbPieceA, fbPieceB] =
        ("Subject: A\nbodyA\nSubject: B\nbodyB").data) ∧
    (([fbPieceA, fbPieceB].map fallbackRecord).take 3 =
      [⟨("A").data, ("bodyA").data⟩, ⟨("B").data, ("bodyB").data⟩]) :=
  ⟨⟨by decide, by decide, by decide, by decide⟩,
    parse_fallback_pieces [] [fbPieceA, fbPieceB] (by decide) (by decide) (by decide)
      (by decide), by decide, by decide⟩

/-! ## The grounding extractor (`extract_resources_from_grounding` in `app.py`)

The grounding metadata is an opaque SDK object; the function only probes
it through `hasattr`/`getattr`, truthiness, iteration, `str()` and a URL
regex.  `PyVal` models the dynamic values those probes can observe. -/

/-- A dynamic Python value: `None`, a string, an integer, a list, or an
object with named attributes. -/
inductive PyVal where
  | pynone : PyVal
  | pystr : List Char → PyVal
  | pyint : Int → PyVal
  | pylist : List PyVal → PyVal
  | pyobj : List (List Char × PyVal) → PyVal

mutual

/-- Python `==` on the modelled values. -/
def pyBeq : PyVal → PyVal → Bool
  | .pynone, .pynone => true
  | .pystr a, .pystr b => a == b
  | .pyint a, .pyint b => a == b
  | .pylist a, .pylist b => pyBeqList a b
  | .pyobj a, .pyobj b => pyBeqFields a b
  | _, _ => false

def pyBeqList : List PyVal → List PyVal → Bool
  | [], [] => true
  | a :: as, b :: bs => pyBeq a b && pyBeqList as bs
  | _, _ => false

def pyBeqFields : List (List Char × PyVal) → List (List Char × PyVal) → Bool
  | [], [] => true
  | (k1, v1) :: as, (k2, v2) :: bs => k1 == k2 && pyBeq v1 v2 && pyBeqFields as bs
  | _, _ => false

end

mutual

theorem pyBeq_refl : ∀ a : PyVal, pyBeq a a = true
  | .pynone => rfl
  | .pystr s => by simp [pyBeq]
  | .pyint n => by simp [pyBeq]
  | .pylist xs => by rw [pyBeq]; exact pyBeqList_refl xs
  | .pyobj fs => by rw [pyBeq]; exact pyBeqFields_refl fs

theorem pyBeqList_refl : ∀ xs : List PyVal, pyBeqList xs xs = true
  | [] => rfl
  | x :: xs => by rw [pyBeqList, pyBeq_refl x, pyBeqList_refl xs]; rfl

theorem pyBeqFields_refl : ∀ fs : List (List Char × PyVal), pyBeqFields fs fs = true
  | [] => rfl
  | (k, v) :: fs => by rw [pyBeqFields, pyBeq_refl v, pyBeqFields_refl fs]; simp

end

def lookupAttr (a : List Char) : List (List Char × PyVal) → Option PyVal
  | [] => none
  | (k, v) :: rest => if k = a then some v else lookupAttr a rest

/-- `hasattr`/`getattr`: objects expose their attributes, every other
modelled value has none. -/
def getattrOpt (v : PyVal) (a : List Char) : Option PyVal :=
  match v with
  | .pyobj fields => lookupAttr a fields
  | _ => none

/-- Python `getattr(v, a, d)`. -/
def getattrD (v : PyVal) (a : List Char) (d : PyVal) : PyVal :=
  (getattrOpt v a).getD d

/-- Python truthiness of the modelled values. -/
def truthy : PyVal → Bool
  | .pynone => false
  | .pystr s => !s.isEmpty
  | .pyint n => n != 0
  | .pylist xs => !xs.isEmpty
  | .pyobj _ => true

/-- Python `a or b`. -/
def pyOr (a b : PyVal) : PyVal := if truthy a then a else b

/-- Python iteration: lists yield their elements, strings their
characters; iterating any other value raises `TypeError` (`none`). -/
def iterElems : PyVal → Option (List PyVal)
  | .pylist xs => some xs
  | .pystr s => some (s.map (fun c => .pystr [c]))
  | _ => none

def attrGroundingChunks : List Char := ("grounding_chunks").data

def attrWeb : List Char := ("web").data

def attrUri : List Char := ("uri").data

def attrUrl : List Char := ("url").data

def attrTitle : List Char := ("title").data

def attrWebSearchQueries : List Char := ("web_search_queries").data

def attrResults : List Char := ("results").data

def attrName : List Char := ("name").data

/-- One extracted citation: `{'url': ..., 'title': ...}`. -/
structure Resource where
  url : PyVal
  title : PyVal

/-- One iteration of the grounding-chunk loop of strategy 1. -/
def chunkStep (acc : List Resource) (chunk : PyVal) : List Resource :=
  match getattrOpt chunk attrWeb with
  | some web =>
    if truthy web then
      let url := pyOr (getattrD web attrUri .pynone) (getattrD web attrUrl .pynone)
      let title := getattrD web attrTitle .pynone
      if truthy url then acc ++ [⟨url, pyOr title url⟩] else acc
    else acc
  | none => acc

/-- The structured-chunk strategy.  The `Bool` is `false` exactly when
the Python loop would raise: `grounding_chunks` present, truthy, and
not iterable. -/
def strategy1 (md : PyVal) (acc : List Resource) : List Resource × Bool :=
  match getattrOpt md attrGroundingChunks with
  | none => (acc, true)
  | some chunks =>
    if truthy chunks then
      match iterElems chunks with
      | none => (acc, false)
      | some xs => (xs.foldl chunkStep acc, true)
    else (acc, true)

/-- One iteration of the inner result loop of strategy 2. -/
def resultStep (acc : List Resource) (result : PyVal) : List Resource :=
  let url := pyOr (getattrD result attrUrl .pynone) (getattrD result attrUri .pynone)
  let title := pyOr (getattrD result attrTitle .pynone) (getattrD result attrName .pynone)
  if truthy url then acc ++ [⟨url, pyOr title url⟩] else acc

/-- One query of strategy 2; `false` when iterating its truthy
non-iterable `results` would raise. -/
def queryStep (acc : List Resource) (query : PyVal) : List Resource × Bool :=
  match getattrOpt query attrResults with
  | some results =>
    if truthy results then
      match iterElems results with
      | none => (acc, false)
      | some rs => (rs.foldl resultStep acc, true)
    else (acc, true)
  | none => (acc, true)

/-- The query loop, aborting at the first raising query. -/
def queriesFold (acc : List Resource) : List PyVal → List Resource × Bool
  | [] => (acc, true)
  | q :: qs =>
    match queryStep acc q with
    | (acc2, true) => queriesFold acc2 qs
    | (acc2, false) => (acc2, false)

/-- The query-result strategy (`web_search_queries`). -/
def strategy2 (md : PyVal) (acc : List Resource) : List Resource × Bool :=
  match getattrOpt md attrWebSearchQueries with
  | none => (acc, true)
  | some queries =>
    if truthy queries then
      match iterElems queries with
      | none => (acc, false)
      | some qs => queriesFold acc qs
    else (acc, true)

mutual

/-- A deterministic repr modelling Python's `str()` of a metadata value
(the exact repr of an SDK object is unspecified; the code only scans
the string for URL-shaped substrings). -/
def pyRepr : PyVal → List Char
  | .pynone => ("None").data
  | .pystr s => '\'' :: s ++ ['\'']
  | .pyint n => (toString n).data
  | .pylist xs => '[' :: pyReprList xs ++ [']']
  | .pyobj fs => '(' :: pyReprFields fs ++ [')']

def pyReprList : List PyVal → List Char
  | [] => []
  | [x] => pyRepr x
  | x :: xs => pyRepr x ++ ',' :: ' ' :: pyReprList xs

def pyReprFields : List (List Char × PyVal) → List Char
  | [] => []
  | [(k, v)] => k ++ '=' :: pyRepr v
  | (k, v) :: fs => k ++ '=' :: pyRepr v ++ ',' :: ' ' :: pyReprFields fs

end

/-- Python `str()`: strings print verbatim, everything else as repr. -/
def pyStr : PyVal → List Char
  | .pystr s => s
  | v => pyRepr v

/-- A character allowed inside a URL by the pattern
`https?://[^\s<>"{}|\^grave[]()]+` (grave = the backquote char). -/
def isUrlChar (c : Char) : Bool :=
  !isPyWs c &&
  !(c = '<' || c = '>' || c = '\"' || c = '\x7b' || c = '\x7d' || c = '|' ||
    c = '\\' || c = '^' || c = '\x60' || c = '[' || c = ']' || c = '(' || c = ')')

def httpsMarker : List Char := ("https://").data

def httpMarker : List Char := ("http://").data

/-- Try to match the URL regex at the head of `s`; on success return
the match and the remaining input. -/
def matchUrl (s : List Char) : Option (List Char × List Char) :=
  if httpsMarker.isPrefixOf s then
    let t := s.drop httpsMarker.length
    let u := t.takeWhile isUrlChar
    if u.isEmpty then none else some (httpsMarker ++ u, t.drop u.length)
  else if httpMarker.isPrefixOf s then
    let t := s.drop httpMarker.length
    let u := t.takeWhile isUrlChar
    if u.isEmpty then none else some (httpMarker ++ u, t.drop u.length)
  else none

/-- `re.findall` for the URL pattern: left-to-right, non-overlapping. -/
def findUrlsAux : Nat → List Char → List (List Char)
  | 0, _ => []
  | _ + 1, [] => []
  | fuel + 1, c :: rest =>
    match matchUrl (c :: rest) with
    | some (u, rest2) => u :: findUrlsAux fuel rest2
    | none => findUrlsAux fuel rest

def findUrls (s : List Char) : List (List Char) := findUrlsAux s.length s

/-- Python `url.rstrip('.,;:!?)')`. -/
def rstripPunct (u : List Char) : List Char :=
  (u.reverse.dropWhile (fun c =>
    c = '.' || c = ',' || c = ';' || c = ':' || c = '!' || c = '?' || c = ')')).reverse

/-- One found URL of the textual fallback: keep it unless empty after
cleaning or already recorded. -/
def urlStep (acc : List Resource) (u : List Char) : List Resource :=
  let u2 := rstripPunct u
  if !u2.isEmpty && !((acc.map Resource.url).any (fun v => pyBeq v (.pystr u2))) then
    acc ++ [⟨.pystr u2, .pystr u2⟩]
  else acc

/-- The textual-fallback strategy: only when no candidate was found so
far, scan `str(metadata)` for URL-shaped substrings. -/
def strategy3 (md : PyVal) (acc : List Resource) : List Resource :=
  if acc.isEmpty then
    (findUrls (pyStr md)).foldl urlStep acc
  else acc

/-- Python hashability of the modelled values.  `None`, strings and
integers hash; lists do not; and the attribute objects `pyobj` models
are pydantic-style SDK values with a structural `==` (what `pyBeq`
computes) and `__hash__` disabled, so they do not hash either. -/
def hashable : PyVal → Bool
  | .pynone => true
  | .pystr _ => true
  | .pyint _ => true
  | .pylist _ => false
  | .pyobj _ => false

/-- The final URL-deduplication loop (`seen_urls` / `unique_resources`):
keep a resource when its url is truthy and not in the seen set.
`none` models the `TypeError` the set test `url not in seen_urls`
raises on a truthy unhashable url; the outer `except` handler then
returns the accumulated resources undeduplicated. -/
def dedupAux (seen : List PyVal) : List Resource → Option (List Resource)
  | [] => some []
  | r :: rs =>
    if truthy r.url then
      if hashable r.url then
        if seen.any (fun v => pyBeq v r.url) then dedupAux seen rs
        else (dedupAux (seen ++ [r.url]) rs).map fun out => r :: out
      else none
    else dedupAux seen rs

def dedupResources (rs : List Resource) : Option (List Resource) := dedupAux [] rs

/-- `extract_resources_from_grounding` from `app.py`.  A strategy's
`false` flag and a `none` from the deduplication loop are the Python
exceptions; the outer `except` handler then returns the resources
accumulated so far, without deduplication. -/
def extract_resources_from_grounding (md : PyVal) : List Resource :=
  if !truthy md then []
  else
    match strategy1 md [] with
    | (acc, false) => acc
    | (acc1, true) =>
      match strategy2 md acc1 with
      | (acc, false) => acc
      | (acc2, true) =>
        match dedupResources (strategy3 md acc2) with
        | some unique => unique
        | none => strategy3 md acc2

/-- Every candidate resource the three strategies discover, in
discovery order, before deduplication. -/
def allCandidates (md : PyVal) : List Resource :=
  if !truthy md then []
  else strategy3 md (strategy2 md (strategy1 md []).1).1

/-- `true` when no step of `extract_resources_from_grounding md`
raises: the strategy loops iterate without `TypeError` and the
deduplication loop hashes every truthy url it tests, so the run
completes the deduplication step. -/
def extractOk (md : PyVal) : Bool :=
  (strategy1 md []).2 && (strategy2 md (strategy1 md []).1).2 &&
    (dedupResources (strategy3 md (strategy2 md (strategy1 md []).1).1)).isSome

/-! ### Extraction only extends the accumulator -/

theorem foldl_append_extends {α : Type} (step : List Resource → α → List Resource)
    (h : ∀ acc x, ∃ d, step acc x = acc ++ d) :
    ∀ (l : List α) (acc : List Resource), ∃ d, l.foldl step acc = acc ++ d := by
  intro l
  induction l with
  | nil => exact fun acc => ⟨[], by simp⟩
  | cons x xs ih =>
    intro acc
    obtain ⟨d1, hd1⟩ := h acc x
    obtain ⟨d2, hd2⟩ := ih (step acc x)
    exact ⟨d1 ++ d2, by rw [List.foldl_cons, hd2, hd1, List.append_assoc]⟩

theorem chunkStep_extends (acc : List Resource) (c : PyVal) :
    ∃ d, chunkStep acc c = acc ++ d := by
  unfold chunkStep
  split
  · split
    · dsimp only
      split
      · exact ⟨_, rfl⟩
      · exact ⟨[], by simp⟩
    · exact ⟨[], by simp⟩
  · exact ⟨[], by simp⟩

theorem resultStep_extends (acc : List Resource) (r : PyVal) :
    ∃ d, resultStep acc r = acc ++ d := by
  unfold resultStep
  dsimp only
  split
  · exact ⟨_, rfl⟩
  · exact ⟨[], by simp⟩

theorem urlStep_extends (acc : List Resource) (u : List Char) :
    ∃ d, urlStep acc u = acc ++ d := by
  unfold urlStep
  dsimp only
  split
  · exact ⟨_, rfl⟩
  · exact ⟨[], by simp⟩

theorem strategy1_fst_extends (md : PyVal) (acc : List Resource) :
    ∃ d, (strategy1 md acc).1 = acc ++ d := by
  unfold strategy1
  split
  · exact ⟨[], by simp⟩
  · split
    · split
      · exact ⟨[], by simp⟩
      · exact foldl_append_extends chunkStep chunkStep_extends _ acc
    · exact ⟨[], by simp⟩

theorem queryStep_fst_extends (acc : List Resource) (q : PyVal) :
    ∃ d, (queryStep acc q).1 = acc ++ d := by
  unfold queryStep
  split
  · split
    · split
      · exact ⟨[], by simp⟩
      · exact foldl_append_extends resultStep resultStep_extends _ acc
    · exact ⟨[], by simp⟩
  · exact ⟨[], by simp⟩

theorem queriesFold_fst_extends :
    ∀ (qs : List PyVal) (acc : List Resource), ∃ d, (queriesFold acc qs).1 = acc ++ d := by
  intro qs
  induction qs with
  | nil => exact fun acc => ⟨[], by simp [queriesFold]⟩
  | cons q qs ih =>
    intro acc
    obtain ⟨d1, hd1⟩ := queryStep_fst_extends acc q
    rcases hq : queryStep acc q with ⟨acc2, ok⟩
    rw [hq] at hd1
    simp only at hd1
    subst hd1
    unfold queriesFold
    cases ok with
    | true =>
      rw [hq]
      obtain ⟨d2, hd2⟩ := ih (acc ++ d1)
      refine ⟨d1 ++ d2, ?_⟩
      show (queriesFold (acc ++ d1) qs).1 = acc ++ (d1 ++ d2)
      rw [hd2, List.append_assoc]
    | false =>
      rw [hq]
      exact ⟨d1, rfl⟩

theorem strategy2_fst_extends (md : PyVal) (acc : List Resource) :
    ∃ d, (strategy2 md acc).1 = acc ++ d := by
  unfold strategy2
  split
  · exact ⟨[], by simp⟩
  · split
    · split
      · exact ⟨[], by simp⟩
      · exact queriesFold_fst_extends _ acc
    · exact ⟨[], by simp⟩

theorem strategy3_extends (md : PyVal) (acc : List Resource) :
    ∃ d, strategy3 md acc = acc ++ d := by
  unfold strategy3
  split
  · exact foldl_append_extends urlStep urlStep_extends _ acc
  · exact ⟨[], by simp⟩

theorem dedupAux_sublist (rs : List Resource) :
    ∀ seen out, dedupAux seen rs = some out → out.Sublist rs := by
  induction rs with
  | nil =>
    intro seen out h
    unfold dedupAux at h
    injection h with h2
    subst h2
    exact List.Sublist.refl []
  | cons r rs ih =>
    intro seen out h
    unfold dedupAux at h
    by_cases ht : truthy r.url = true
    · rw [if_pos ht] at h
      by_cases hh : hashable r.url = true
      · rw [if_pos hh] at h
        by_cases hs : (seen.any (fun v => pyBeq v r.url)) = true
        · rw [if_pos hs] at h
          exact List.Sublist.cons r (ih seen out h)
        · rw [if_neg hs] at h
          cases hrec : dedupAux (seen ++ [r.url]) rs with
          | none => rw [hrec] at h; simp at h
          | some out2 =>
            rw [hrec] at h
            simp only [Option.map_some'] at h
            injection h with h2
            subst h2
            exact List.Sublist.cons₂ r (ih (seen ++ [r.url]) out2 hrec)
      · rw [if_neg hh] at h
        simp at h
    · rw [if_neg ht] at h
      exact List.Sublist.cons r (ih seen out h)

/-- C2: extraction of null metadata yields the empty sequence, and on
every metadata value the function returns normally, with a subsequence
of the discovered candidates: the deduplicated candidates on a clean
run, the candidates accumulated so far when a strategy raises. -/
theorem extract_null_and_never_raises :
    extract_resources_from_grounding PyVal.pynone = [] ∧
    ∀ md : PyVal,
      (extract_resources_from_grounding md).Sublist (allCandidates md) := by
  constructor
  · rfl
  · intro md
    unfold extract_resources_from_grounding allCandidates
    cases htr : truthy md with
    | false => simp
    | true =>
      simp only [htr, Bool.not_true, Bool.false_eq_true, if_false]
      rcases hs1 : strategy1 md [] with ⟨acc1, ok1⟩
      cases ok1 with
      | false =>
        obtain ⟨d2, hd2⟩ := strategy2_fst_extends md acc1
        obtain ⟨d3, hd3⟩ := strategy3_extends md (strategy2 md acc1).1
        show acc1.Sublist (strategy3 md (strategy2 md acc1).1)
        rw [hd3, hd2, List.append_assoc]
        exact List.sublist_append_left acc1 (d2 ++ d3)
      | true =>
        show (match strategy2 md acc1 with
          | (acc, false) => acc
          | (acc2, true) =>
            match dedupResources (strategy3 md acc2) with
            | some unique => unique
            | none => strategy3 md acc2).Sublist (strategy3 md (strategy2 md acc1).1)
        rcases hs2 : strategy2 md acc1 with ⟨acc2, ok2⟩
        cases ok2 with
        | false =>
          show acc2.Sublist (strategy3 md acc2)
          obtain ⟨d3, hd3⟩ := strategy3_extends md acc2
          rw [hd3]
          exact List.sublist_append_left acc2 d3
        | true =>
          show (match dedupResources (strategy3 md acc2) with
            | some unique => unique
            | none => strategy3 md acc2).Sublist (strategy3 md acc2)
          cases hd : dedupResources (strategy3 md acc2) with
          | none => exact List.Sublist.refl _
          | some unique => exact dedupAux_sublist (strategy3 md acc2) [] unique hd


/-! ### Deduplication properties -/

/-- Spec-side deduplication by URL: the first occurrence of each URL
wins and discovery order is preserved. -/
def dedupSpecAux (seen : List PyVal) : List Resource → List Resource
  | [] => []
  | r :: rs =>
    if seen.any fun v => pyBeq v r.url then dedupSpecAux seen rs
    else r :: dedupSpecAux (seen ++ [r.url]) rs

def dedupSpec (rs : List Resource) : List Resource := dedupSpecAux [] rs

theorem dedupAux_not_seen (rs : List Resource) :
    ∀ seen out r, dedupAux seen rs = some out → r ∈ out →
      ∀ u ∈ seen, pyBeq u r.url = false := by
  induction rs with
  | nil =>
    intro seen out r h hr
    unfold dedupAux at h
    injection h with h2
    subst h2
    simp at hr
  | cons x rs ih =>
    intro seen out r h hr u hu
    unfold dedupAux at h
    by_cases ht : truthy x.url = true
    · rw [if_pos ht] at h
      by_cases hh : hashable x.url = true
      · rw [if_pos hh] at h
        by_cases hs : (seen.any (fun v => pyBeq v x.url)) = true
        · rw [if_pos hs] at h
          exact ih seen out r h hr u hu
        · rw [if_neg hs] at h
          cases hrec : dedupAux (seen ++ [x.url]) rs with
          | none => rw [hrec] at h; simp at h
          | some out2 =>
            rw [hrec] at h
            simp only [Option.map_some'] at h
            injection h with h2
            subst h2
            rcases List.mem_cons.mp hr with hrx | hrm
            · subst hrx
              have hsf : (seen.any (fun v => pyBeq v r.url)) = false :=
                Bool.eq_false_iff.mpr hs
              have hall := List.any_eq_false.mp hsf
              simpa using hall u hu
            · exact ih (seen ++ [x.url]) out2 r hrec hrm u (List.mem_append_left _ hu)
      · rw [if_neg hh] at h
        simp at h
    · rw [if_neg ht] at h
      exact ih seen out r h hr u hu

theorem dedupAux_pairwise (rs : List Resource) :
    ∀ seen out, dedupAux seen rs = some out →
      List.Pairwise (fun a b : Resource => a.url ≠ b.url) out := by
  induction rs with
  | nil =>
    intro seen out h
    unfold dedupAux at h
    injection h with h2
    subst h2
    simp
  | cons x rs ih =>
    intro seen out h
    unfold dedupAux at h
    by_cases ht : truthy x.url = true
    · rw [if_pos ht] at h
      by_cases hh : hashable x.url = true
      · rw [if_pos hh] at h
        by_cases hs : (seen.any (fun v => pyBeq v x.url)) = true
        · rw [if_pos hs] at h
          exact ih seen out h
        · rw [if_neg hs] at h
          cases hrec : dedupAux (seen ++ [x.url]) rs with
          | none => rw [hrec] at h; simp at h
          | some out2 =>
            rw [hrec] at h
            simp only [Option.map_some'] at h
            injection h with h2
            subst h2
            refine List.Pairwise.cons ?_ (ih (seen ++ [x.url]) out2 hrec)
            intro b hb heq
            have hfalse : pyBeq x.url b.url = false :=
              dedupAux_not_seen rs (seen ++ [x.url]) out2 b hrec hb x.url
                (List.mem_append_right _ (by simp))
            rw [heq, pyBeq_refl b.url] at hfalse
            exact Bool.true_eq_false.mp hfalse
      · rw [if_neg hh] at h
        simp at h
    · rw [if_neg ht] at h
      exact ih seen out h

theorem dedupAux_eq_spec (rs : List Resource) :
    ∀ seen out, (∀ r ∈ rs, truthy r.url = true) →
      dedupAux seen rs = some out → out = dedupSpecAux seen rs := by
  induction rs with
  | nil =>
    intro seen out _ h
    unfold dedupAux at h
    injection h with h2
    subst h2
    rfl
  | cons x rs ih =>
    intro seen out hall h
    have hx : truthy x.url = true := hall x (by simp)
    have hrest : ∀ r ∈ rs, truthy r.url = true :=
      fun r hr => hall r (List.mem_cons_of_mem x hr)
    unfold dedupAux at h
    rw [if_pos hx] at h
    unfold dedupSpecAux
    by_cases hh : hashable x.url = true
    · rw [if_pos hh] at h
      by_cases hs : (seen.any (fun v => pyBeq v x.url)) = true
      · rw [if_pos hs] at h
        rw [if_pos hs]
        exact ih seen out hrest h
      · rw [if_neg hs] at h
        rw [if_neg hs]
        cases hrec : dedupAux (seen ++ [x.url]) rs with
        | none => rw [hrec] at h; simp at h
        | some out2 =>
          rw [hrec] at h
          simp only [Option.map_some'] at h
          injection h with h2
          subst h2
          rw [ih (seen ++ [x.url]) out2 hrest hrec]
    · rw [if_neg hh] at h
      simp at h

/-! ### All candidates carry truthy URLs -/

theorem foldl_preserves_truthy {α : Type} (step : List Resource → α → List Resource)
    (h : ∀ acc x, (∀ r ∈ acc, truthy r.url = true) → ∀ r ∈ step acc x, truthy r.url = true) :
    ∀ (l : List α) (acc : List Resource),
      (∀ r ∈ acc, truthy r.url = true) → ∀ r ∈ l.foldl step acc, truthy r.url = true := by
  intro l
  induction l with
  | nil => intro acc hacc; simpa using hacc
  | cons x xs ih => intro acc hacc; exact ih (step acc x) (h acc x hacc)

theorem chunkStep_truthy (acc : List Resource) (c : PyVal)
    (hacc : ∀ r ∈ acc, truthy r.url = true) :
    ∀ r ∈ chunkStep acc c, truthy r.url = true := by
  intro r hr
  unfold chunkStep at hr
  cases hw : getattrOpt c attrWeb with
  | none =>
    rw [hw] at hr
    exact hacc r hr
  | some web =>
    rw [hw] at hr
    dsimp only at hr
    by_cases htw : truthy web = true
    · rw [if_pos htw] at hr
      by_cases hu : truthy
          (pyOr (getattrD web attrUri .pynone) (getattrD web attrUrl .pynone)) = true
      · rw [if_pos hu] at hr
        rcases List.mem_append.mp hr with hmem | hmem
        · exact hacc r hmem
        · have hre := List.mem_singleton.mp hmem
          rw [hre]
          exact hu
      · rw [if_neg hu] at hr
        exact hacc r hr
    · rw [if_neg htw] at hr
      exact hacc r hr

theorem resultStep_truthy (acc : List Resource) (q : PyVal)
    (hacc : ∀ r ∈ acc, truthy r.url = true) :
    ∀ r ∈ resultStep acc q, truthy r.url = true := by
  intro r hr
  unfold resultStep at hr
  dsimp only at hr
  by_cases hu : truthy
      (pyOr (getattrD q attrUrl .pynone) (getattrD q attrUri .pynone)) = true
  · rw [if_pos hu] at hr
    rcases List.mem_append.mp hr with hmem | hmem
    · exact hacc r hmem
    · have hre := List.mem_singleton.mp hmem
      rw [hre]
      exact hu
  · rw [if_neg hu] at hr
    exact hacc r hr

theorem urlStep_truthy (acc : List Resource) (u : List Char)
    (hacc : ∀ r ∈ acc, truthy r.url = true) :
    ∀ r ∈ urlStep acc u, truthy r.url = true := by
  intro r hr
  unfold urlStep at hr
  dsimp only at hr
  by_cases hc : (!(rstripPunct u).isEmpty &&
      !((acc.map Resource.url).any fun v => pyBeq v (.pystr (rstripPunct u)))) = true
  · rw [if_pos hc] at hr
    rcases List.mem_append.mp hr with hmem | hmem
    · exact hacc r hmem
    · have hre := List.mem_singleton.mp hmem
      rw [Bool.and_eq_true] at hc
      rw [hre]
      exact hc.1
  · rw [if_neg hc] at hr
    exact hacc r hr

theorem strategy1_truthy (md : PyVal) (acc : List Resource)
    (hacc : ∀ r ∈ acc, truthy r.url = true) :
    ∀ r ∈ (strategy1 md acc).1, truthy r.url = true := by
  unfold strategy1
  split
  · simpa using hacc
  · split
    · split
      · simpa using hacc
      · simpa using foldl_preserves_truthy chunkStep chunkStep_truthy _ acc hacc
    · simpa using hacc

theorem queryStep_truthy (acc : List Resource) (q : PyVal)
    (hacc : ∀ r ∈ acc, truthy r.url = true) :
    ∀ r ∈ (queryStep acc q).1, truthy r.url = true := by
  unfold queryStep
  split
  · split
    · split
      · simpa using hacc
      · simpa using foldl_preserves_truthy resultStep resultStep_truthy _ acc hacc
    · simpa using hacc
  · simpa using hacc

theorem queriesFold_truthy :
    ∀ (qs : List PyVal) (acc : List Resource),
      (∀ r ∈ acc, truthy r.url = true) →
      ∀ r ∈ (queriesFold acc qs).1, truthy r.url = true := by
  intro qs
  induction qs with
  | nil => intro acc hacc; simpa [queriesFold] using hacc
  | cons q qs ih =>
    intro acc hacc
    unfold queriesFold
    rcases hq : queryStep acc q with ⟨acc2, ok⟩
    have hacc2 : ∀ r ∈ acc2, truthy r.url = true := by
      have hqt := queryStep_truthy acc q hacc
      rw [hq] at hqt
      simpa using hqt
    cases ok with
    | true => simpa using ih acc2 hacc2
    | false => simpa using hacc2

theorem strategy2_truthy (md : PyVal) (acc : List Resource)
    (hacc : ∀ r ∈ acc, truthy r.url = true) :
    ∀ r ∈ (strategy2 md acc).1, truthy r.url = true := by
  unfold strategy2
  split
  · simpa using hacc
  · split
    · split
      · simpa using hacc
      · simpa using queriesFold_truthy _ acc hacc
    · simpa using hacc

theorem strategy3_truthy (md : PyVal) (acc : List Resource)
    (hacc : ∀ r ∈ acc, truthy r.url = true) :
    ∀ r ∈ strategy3 md acc, truthy r.url = true := by
  unfold strategy3
  split
  · exact foldl_preserves_truthy urlStep urlStep_truthy _ acc hacc
  · exact hacc

theorem allCandidates_truthy (md : PyVal) :
    ∀ r ∈ allCandidates md, truthy r.url = true := by
  unfold allCandidates
  split
  · simp
  · exact strategy3_truthy md _ (strategy2_truthy md _ (strategy1_truthy md [] (by simp)))

/-- On a run where no step raises, the deduplication of the candidate
list succeeds and is what the function returns. -/
theorem extract_ok_eq (md : PyVal) (h : extractOk md = true) :
    dedupResources (allCandidates md) = some (extract_resources_from_grounding md) := by
  unfold extractOk at h
  rw [Bool.and_eq_true, Bool.and_eq_true] at h
  rcases h with ⟨⟨h1, h2⟩, h3⟩
  unfold extract_resources_from_grounding allCandidates
  cases htr : truthy md with
  | false =>
    simp only [htr, Bool.not_false, if_true]
    rfl
  | true =>
    simp only [htr, Bool.not_true, Bool.false_eq_true, if_false]
    rcases hs1 : strategy1 md [] with ⟨acc1, ok1⟩
    rw [hs1] at h1 h2 h3
    dsimp only at h1 h2 h3
    subst h1
    show dedupResources (strategy3 md (strategy2 md acc1).1) =
      some (match strategy2 md acc1 with
        | (acc, false) => acc
        | (acc2, true) =>
          match dedupResources (strategy3 md acc2) with
          | some unique => unique
          | none => strategy3 md acc2)
    rcases hs2 : strategy2 md acc1 with ⟨acc2, ok2⟩
    rw [hs2] at h2 h3
    dsimp only at h2 h3
    subst h2
    show dedupResources (strategy3 md acc2) =
      some (match dedupResources (strategy3 md acc2) with
        | some unique => unique
        | none => strategy3 md acc2)
    cases hd : dedupResources (strategy3 md acc2) with
    | none =>
      rw [hd] at h3
      simp at h3
    | some unique => rfl

/-- C3 (amended): whenever no step of the extraction raises — the
strategy loops iterate without `TypeError` and the deduplication set
test hashes every truthy url it meets, so the run completes the
deduplication step — the returned sequence is the
first-occurrence-wins deduplication of the discovered candidates, in
discovery order, and no two returned resources share a URL. -/
theorem extract_dedup_of_ok (md : PyVal) (h : extractOk md = true) :
    extract_resources_from_grounding md = dedupSpec (allCandidates md) ∧
    List.Pairwise (fun a b : Resource => a.url ≠ b.url)
      (extract_resources_from_grounding md) := by
  have he := extract_ok_eq md h
  constructor
  · exact dedupAux_eq_spec (allCandidates md) []
      (extract_resources_from_grounding md) (allCandidates_truthy md) he
  · exact dedupAux_pairwise (allCandidates md) []
      (extract_resources_from_grounding md) he

/-! ### Concrete metadata values for the C3 counterexample and witness -/

def urlDup : List Char := ("https://example.com/a").data

def titleOne : List Char := ("First title").data

def titleTwo : List Char := ("Second title").data

def chunkOne : PyVal :=
  .pyobj [(attrWeb, .pyobj [(attrUri, .pystr urlDup), (attrTitle, .pystr titleOne)])]

def chunkTwo : PyVal :=
  .pyobj [(attrWeb, .pyobj [(attrUri, .pystr urlDup), (attrTitle, .pystr titleTwo)])]

/-- Metadata with two chunks carrying the same URL and a truthy
non-iterable `web_search_queries`: strategy 2 raises, so the `except`
handler returns the undeduplicated chunk candidates. -/
def mdBad : PyVal :=
  .pyobj [(attrGroundingChunks, .pylist [chunkOne, chunkTwo]),
    (attrWebSearchQueries, .pyint 1)]

/-- Metadata with two chunks carrying the same URL and no query
attribute: no step raises, so the run completes deduplication. -/
def mdGood : PyVal :=
  .pyobj [(attrGroundingChunks, .pylist [chunkOne, chunkTwo])]

def resourceDupA : Resource := ⟨.pystr urlDup, .pystr titleOne⟩

def resourceDupB : Resource := ⟨.pystr urlDup, .pystr titleTwo⟩

def listUrl : PyVal := .pylist [.pyint 1]

def chunkListUrl : PyVal := .pyobj [(attrWeb, .pyobj [(attrUri, listUrl)])]

/-- Metadata whose two chunks share a truthy but unhashable
(list-valued) url: no strategy raises, yet the deduplication set test
raises `TypeError`, so the except handler returns both same-url
resources undeduplicated. -/
def mdListUrl : PyVal :=
  .pyobj [(attrGroundingChunks, .pylist [chunkListUrl, chunkListUrl])]

def resourceListUrl : Resource := ⟨listUrl, listUrl⟩

/-- C3 counterexample: the claim's universally quantified
deduplication guarantee fails — on `mdBad` the strategy-2 exception
path returns two resources with the same URL (and different titles),
and on `mdListUrl` every strategy succeeds but the deduplication loop
itself raises on the unhashable url, again returning two resources
with the same URL. -/
theorem extract_dedup_counterexample :
    (extract_resources_from_grounding mdBad = [resourceDupA, resourceDupB] ∧
      resourceDupA.url = resourceDupB.url ∧
      resourceDupA.title ≠ resourceDupB.title ∧
      ¬ List.Pairwise (fun a b : Resource => a.url ≠ b.url)
          (extract_resources_from_grounding mdBad)) ∧
    (extract_resources_from_grounding mdListUrl = [resourceListUrl, resourceListUrl] ∧
      extractOk mdListUrl = false ∧
      ¬ List.Pairwise (fun a b : Resource => a.url ≠ b.url)
          (extract_resources_from_grounding mdListUrl)) := by
  refine ⟨⟨rfl, rfl, ?_, ?_⟩, rfl, rfl, ?_⟩
  · intro hteq
    have hpy : PyVal.pystr titleOne = PyVal.pystr titleTwo := hteq
    injection hpy with hinj
    exact absurd hinj (by decide)
  · intro hpw
    rw [show extract_resources_from_grounding mdBad = [resourceDupA, resourceDupB]
      from rfl] at hpw
    have hne := (List.pairwise_cons.mp hpw).1 resourceDupB (by simp)
    exact hne rfl
  · intro hpw
    rw [show extract_resources_from_grounding mdListUrl =
        [resourceListUrl, resourceListUrl] from rfl] at hpw
    have hne := (List.pairwise_cons.mp hpw).1 resourceListUrl (by simp)
    exact hne rfl

theorem extract_dedup_of_ok_witness :
    extractOk mdGood = true ∧
    (extract_resources_from_grounding mdGood = dedupSpec (allCandidates mdGood) ∧
      List.Pairwise (fun a b : Resource => a.url ≠ b.url)
        (extract_resources_from_grounding mdGood)) ∧
    extract_resources_from_grounding mdGood = [resourceDupA] :=
  ⟨rfl, extract_dedup_of_ok mdGood rfl, rfl⟩

/-! ## The request log (`utils/logger.py`)

The JSONL store is modelled as a list of lines; a line either
deserializes to an entry or is corrupt (rejected by `json.loads`).
Timestamp-derived values (`entry_id`, timestamps) are parameters of
the model. -/

/-- The token-usage triple logged with a request. -/
structure TokenUsage where
  input : Int
  output : Int
  total : Int

/-- The immutable input snapshot of one generation request. -/
structure LogInputs where
  person_name : List Char
  linkedin_url : List Char
  company_website : List Char
  x_profile_url : List Char
  word_limit : Int
  thinking_level : List Char
  past_conversation : List Char
  custom_instructions : List Char

/-- The immutable output snapshot of one generation request. -/
structure LogOutputs where
  generated_emails : List EmailRecord
  token_usage : TokenUsage
  resources : List Resource

/-- The mutable feedback sub-record: a fixed 3-slot list of optional
"actually sent" texts, plus the dynamic `feedback_timestamp_i` keys. -/
structure Feedback where
  emails_actually_sent : List (Option (List Char))
  timestamps : List (Nat × List Char)

/-- One persisted log record. -/
structure LogEntry where
  id : List Char
  timestamp : List Char
  inputs : LogInputs
  outputs : LogOutputs
  feedback : Feedback

/-- One line of `outreach_log.jsonl`: either the serialization of an
entry, or a corrupt/blank line that `json.loads` rejects. -/
inductive LogLine where
  | good : LogEntry → LogLine
  | bad : List Char → LogLine

/-- `_read_all_entries`: parse every line, silently skipping lines
that fail to parse. -/
def read_all_entries (store : List LogLine) : List LogEntry :=
  store.filterMap fun line =>
    match line with
    | .good e => some e
    | .bad _ => none

/-- `_write_all_entries`: rewrite the whole file from the parsed
entries. -/
def write_all_entries (entries : List LogEntry) : List LogLine :=
  entries.map LogLine.good

/-- `log_request`: append one entry, with feedback initialized to
three empty slots, and return the generated id. -/
def log_request (entry_id timestamp : List Char) (inputs : LogInputs)
    (outputs : LogOutputs) (store : List LogLine) : List LogLine × List Char :=
  (store ++ [LogLine.good
      { id := entry_id, timestamp := timestamp, inputs := inputs, outputs := outputs,
        feedback := { emails_actually_sent := [none, none, none], timestamps := [] } }],
    entry_id)

/-- Python dict assignment for the `feedback_timestamp_i` keys:
replace in place, or append a new key. -/
def setKey (k : Nat) (v : List Char) : List (Nat × List Char) → List (Nat × List Char)
  | [] => [(k, v)]
  | (k2, v2) :: rest => if k2 = k then (k, v) :: rest else (k2, v2) :: setKey k v rest

/-- Set feedback slot `email_index` and its per-slot timestamp. -/
def setFeedback (e : LogEntry) (email_index : Nat) (text ts : List Char) : LogEntry :=
  { e with feedback :=
      { emails_actually_sent :=
          e.feedback.emails_actually_sent.set email_index (some text),
        timestamps := setKey email_index ts e.feedback.timestamps } }

/-- The scan-and-`break` loop of `log_feedback`: update the first
entry with the matching id; the `Bool` is `updated`. -/
def updateFirst (entry_id : List Char) (email_index : Nat) (text ts : List Char) :
    List LogEntry → List LogEntry × Bool
  | [] => ([], false)
  | e :: es =>
    if e.id = entry_id then
      (setFeedback e email_index text ts :: es, true)
    else
      (e :: (updateFirst entry_id email_index text ts es).1,
        (updateFirst entry_id email_index text ts es).2)

/-- `log_feedback`: read all entries, update the first match, and
rewrite the whole file only when a match was found; return whether a
match was found. -/
def log_feedback (entry_id : List Char) (email_index : Nat) (text ts : List Char)
    (store : List LogLine) : List LogLine × Bool :=
  match updateFirst entry_id email_index text ts (read_all_entries store) with
  | (entries2, true) => (write_all_entries entries2, true)
  | (_, false) => (store, false)

/-- Python `entries[-limit:]` for a natural `limit`: since `-0 == 0`,
limit 0 slices the whole list. -/
def pySliceLast {α : Type} (limit : Nat) (l : List α) : List α :=
  if limit = 0 then l else l.drop (l.length - limit)

/-- `get_recent_entries`. -/
def get_recent_entries (limit : Nat) (store : List LogLine) : List LogEntry :=
  pySliceLast limit (read_all_entries store)

/-! ### Log lemmas -/

theorem read_write_all_entries (entries : List LogEntry) :
    read_all_entries (write_all_entries entries) = entries := by
  induction entries with
  | nil => rfl
  | cons e es ih =>
    unfold write_all_entries read_all_entries at ih ⊢
    simp only [List.map_cons, List.filterMap_cons]
    rw [ih]

theorem read_all_entries_append (s1 s2 : List LogLine) :
    read_all_entries (s1 ++ s2) = read_all_entries s1 ++ read_all_entries s2 :=
  List.filterMap_append s1 s2 _

theorem updateFirst_no_match (entry_id : List Char) (email_index : Nat)
    (text ts : List Char) :
    ∀ es : List LogEntry, (∀ e ∈ es, e.id ≠ entry_id) →
      updateFirst entry_id email_index text ts es = (es, false) := by
  intro es
  induction es with
  | nil => intro _; rfl
  | cons e es ih =>
    intro h
    rw [updateFirst, if_neg (h e (by simp)), ih (fun x hx => h x (List.mem_cons_of_mem e hx))]

theorem updateFirst_append_no_match (entry_id : List Char) (email_index : Nat)
    (text ts : List Char) :
    ∀ (es rest : List LogEntry), (∀ e ∈ es, e.id ≠ entry_id) →
      updateFirst entry_id email_index text ts (es ++ rest) =
        (es ++ (updateFirst entry_id email_index text ts rest).1,
          (updateFirst entry_id email_index text ts rest).2) := by
  intro es
  induction es with
  | nil => intro rest _; simp
  | cons e es ih =>
    intro rest h
    rw [List.cons_append, updateFirst, if_neg (h e (by simp)),
      ih rest (fun x hx => h x (List.mem_cons_of_mem e hx))]
    rfl

theorem updateFirst_cons_match (entry_id : List Char) (email_index : Nat)
    (text ts : List Char) (e : LogEntry) (es : List LogEntry) (he : e.id = entry_id) :
    updateFirst entry_id email_index text ts (e :: es) =
      (setFeedback e email_index text ts :: es, true) := by
  rw [updateFirst, if_pos he]

theorem pySliceLast_one_append {α : Type} (es : List α) (x : α) :
    pySliceLast 1 (es ++ [x]) = [x] := by
  unfold pySliceLast
  rw [if_neg (by omega)]
  have hlen : (es ++ [x]).length - 1 = es.length := by
    simp
  rw [hlen, List.drop_left]

/-! ### C7: append then attach feedback -/

/-- C7: after appending an entry whose id is unique in the store,
attaching feedback to slot 1 with the returned id succeeds, and
`recent(1)` returns that entry with feedback slot 1 set to the text
and slots 0 and 2 still unset. -/
theorem append_then_feedback (store : List LogLine)
    (entry_id timestamp ts text : List Char)
    (inputs : LogInputs) (outputs : LogOutputs)
    (hid : ∀ e ∈ read_all_entries store, e.id ≠ entry_id) :
    (log_feedback (log_request entry_id timestamp inputs outputs store).2 1 text ts
        (log_request entry_id timestamp inputs outputs store).1).2 = true ∧
    ∃ e, get_recent_entries 1
        (log_feedback (log_request entry_id timestamp inputs outputs store).2 1 text ts
          (log_request entry_id timestamp inputs outputs store).1).1 = [e] ∧
      e.id = entry_id ∧
      e.feedback.emails_actually_sent = [none, some text, none] := by
  have hread : read_all_entries (log_request entry_id timestamp inputs outputs store).1 =
      read_all_entries store ++
        [{ id := entry_id, timestamp := timestamp, inputs := inputs, outputs := outputs,
            feedback := { emails_actually_sent := [none, none, none], timestamps := [] } }] := by
    unfold log_request
    rw [read_all_entries_append]
    rfl
  have hupd := updateFirst_append_no_match entry_id 1 text ts
    (read_all_entries store)
    [{ id := entry_id, timestamp := timestamp, inputs := inputs, outputs := outputs,
        feedback := { emails_actually_sent := [none, none, none], timestamps := [] } }] hid
  rw [updateFirst_cons_match entry_id 1 text ts _ [] rfl] at hupd
  have hfb : log_feedback (log_request entry_id timestamp inputs outputs store).2 1 text ts
      (log_request entry_id timestamp inputs outputs store).1 =
      (write_all_entries (read_all_entries store ++
        [setFeedback
          { id := entry_id, timestamp := timestamp, inputs := inputs, outputs := outputs,
            feedback := { emails_actually_sent := [none, none, none], timestamps := [] } }
          1 text ts]), true) := by
    unfold log_feedback
    rw [show (log_request entry_id timestamp inputs outputs store).2 = entry_id from rfl,
      hread, hupd]
  constructor
  · rw [hfb]
  · refine ⟨setFeedback
      { id := entry_id, timestamp := timestamp, inputs := inputs, outputs := outputs,
        feedback := { emails_actually_sent := [none, none, none], timestamps := [] } }
      1 text ts, ?_, rfl, rfl⟩
    rw [hfb]
    unfold get_recent_entries
    rw [read_write_all_entries]
    exact pySliceLast_one_append _ _

/-! ### C8: feedback with a non-existent id -/

/-- C8: `log_feedback` with an id matching no stored entry returns
`false` and returns the store unchanged, byte for byte — no rewrite of
the file happens. -/
theorem feedback_missing_id (store : List LogLine)
    (entry_id text ts : List Char) (email_index : Nat)
    (hid : ∀ e ∈ read_all_entries store, e.id ≠ entry_id) :
    log_feedback entry_id email_index text ts store = (store, false) := by
  unfold log_feedback
  rw [updateFirst_no_match entry_id email_index text ts (read_all_entries store) hid]

/-! ### C10: duplicate identifiers -/

/-- C10: when the store holds two (or more) entries with the same id,
attaching feedback updates only the earliest-appended matching entry,
leaves every later entry unchanged, and returns `true`. -/
theorem feedback_duplicate_ids (pre mid post : List LogLine) (e1 e2 : LogEntry)
    (entry_id text ts : List Char) (email_index : Nat)
    (store : List LogLine)
    (hstore : store = pre ++ [LogLine.good e1] ++ mid ++ [LogLine.good e2] ++ post)
    (hpre : ∀ e ∈ read_all_entries pre, e.id ≠ entry_id)
    (h1 : e1.id = entry_id) (_h2 : e2.id = entry_id)
    (_hidx : email_index < e1.feedback.emails_actually_sent.length) :
    (log_feedback entry_id email_index text ts store).2 = true ∧
    read_all_entries (log_feedback entry_id email_index text ts store).1 =
      read_all_entries pre ++ [setFeedback e1 email_index text ts] ++
        read_all_entries mid ++ [e2] ++ read_all_entries post := by
  have hread : read_all_entries store =
      read_all_entries pre ++ (e1 :: (read_all_entries mid ++ (e2 :: read_all_entries post))) := by
    subst hstore
    rw [read_all_entries_append, read_all_entries_append, read_all_entries_append,
      read_all_entries_append]
    show read_all_entries pre ++ [e1] ++ read_all_entries mid ++ [e2] ++
        read_all_entries post = _
    simp [List.append_assoc]
  have hupd := updateFirst_append_no_match entry_id email_index text ts
    (read_all_entries pre)
    (e1 :: (read_all_entries mid ++ (e2 :: read_all_entries post))) hpre
  rw [updateFirst_cons_match entry_id email_index text ts e1 _ h1] at hupd
  have hfb : log_feedback entry_id email_index text ts store =
      (write_all_entries (read_all_entries pre ++
        (setFeedback e1 email_index text ts ::
          (read_all_entries mid ++ (e2 :: read_all_entries post)))), true) := by
    unfold log_feedback
    rw [hread, hupd]
  constructor
  · rw [hfb]
  · rw [hfb]
    show read_all_entries (write_all_entries _) = _
    rw [read_write_all_entries]
    simp [List.append_assoc]

/-! ### C6: recent entries -/

/-- C6 (amended): for every positive limit, `recent` returns exactly
the last `limit` valid entries in append order (all of them when fewer
exist); `recent(0)` returns all valid entries, not the empty
sequence. -/
theorem get_recent_entries_last (store : List LogLine) (limit : Nat) :
    (1 ≤ limit →
      ∃ pre, read_all_entries store = pre ++ get_recent_entries limit store ∧
        (get_recent_entries limit store).length =
          min limit (read_all_entries store).length) ∧
    get_recent_entries 0 store = read_all_entries store := by
  constructor
  · intro hlim
    refine ⟨(read_all_entries store).take ((read_all_entries store).length - limit),
      ?_, ?_⟩
    · unfold get_recent_entries pySliceLast
      rw [if_neg (by omega)]
      exact (List.take_append_drop _ _).symm
    · unfold get_recent_entries pySliceLast
      rw [if_neg (by omega), List.length_drop]
      omega
  · unfold get_recent_entries pySliceLast
    rw [if_pos rfl]

/-! ### Concrete log values for the witnesses and counterexample -/

def inputsW : LogInputs :=
  { person_name := ("John Smith").data, linkedin_url := ("https://linkedin.com/in/js").data,
    company_website := [], x_profile_url := [], word_limit := 175,
    thinking_level := ("low").data, past_conversation := [], custom_instructions := [] }

def outputsW : LogOutputs :=
  { generated_emails := [], token_usage := { input := 10, output := 20, total := 30 },
    resources := [] }

def entryW1 : LogEntry :=
  { id := ("20240101_000000_000001").data, timestamp := ("t1").data,
    inputs := inputsW, outputs := outputsW,
    feedback := { emails_actually_sent := [none, none, none], timestamps := [] } }

def entryW2 : LogEntry :=
  { id := ("20240101_000000_000002").data, timestamp := ("t2").data,
    inputs := inputsW, outputs := outputsW,
    feedback := { emails_actually_sent := [none, none, none], timestamps := [] } }

def entryWdup : LogEntry :=
  { id := ("20240101_000000_000001").data, timestamp := ("t3").data,
    inputs := inputsW, outputs := outputsW,
    feedback := { emails_actually_sent := [none, none, none], timestamps := [] } }

def storeW : List LogLine :=
  [LogLine.good entryW1, LogLine.bad ("NOT VALID JSON").data, LogLine.good entryW2]

/-- C6 counterexample: on a one-entry store, `recent(0)` returns the
whole store (Python `entries[-0:]` is `entries[0:]`), not the empty
sequence. -/
theorem get_recent_entries_zero_counterexample :
    get_recent_entries 0 [LogLine.good entryW1] = [entryW1] ∧
    [entryW1] ≠ ([] : List LogEntry) :=
  ⟨rfl, by simp⟩

theorem get_recent_entries_last_witness :
    (1 : Nat) ≤ 2 ∧
    ((1 ≤ 2 →
      ∃ pre, read_all_entries storeW = pre ++ get_recent_entries 2 storeW ∧
        (get_recent_entries 2 storeW).length =
          min 2 (read_all_entries storeW).length) ∧
      get_recent_entries 0 storeW = read_all_entries storeW) :=
  ⟨by decide, get_recent_entries_last storeW 2⟩

def newIdW : List Char := ("20240101_000000_000099").data

def hiThere : List Char := ("Hi there").data

theorem append_then_feedback_witness :
    (∀ e ∈ read_all_entries storeW, e.id ≠ newIdW) ∧
    ((log_feedback (log_request newIdW ("t9").data inputsW outputsW storeW).2 1 hiThere
        ("t10").data (log_request newIdW ("t9").data inputsW outputsW storeW).1).2 = true ∧
      ∃ e, get_recent_entries 1
          (log_feedback (log_request newIdW ("t9").data inputsW outputsW storeW).2 1 hiThere
            ("t10").data (log_request newIdW ("t9").data inputsW outputsW storeW).1).1 = [e] ∧
        e.id = newIdW ∧
        e.feedback.emails_actually_sent = [none, some hiThere, none]) :=
  ⟨by decide,
    append_then_feedback storeW newIdW ("t9").data ("t10").data hiThere inputsW outputsW
      (by decide)⟩

theorem feedback_missing_id_witness :
    (∀ e ∈ read_all_entries storeW, e.id ≠ newIdW) ∧
    log_feedback newIdW 1 hiThere ("t10").data storeW = (storeW, false) :=
  ⟨by decide, feedback_missing_id storeW newIdW hiThere ("t10").data 1 (by decide)⟩

def storeDup : List LogLine :=
  [LogLine.good entryW2] ++ [LogLine.good entryW1] ++ [LogLine.bad ("corrupt").data] ++
    [LogLine.good entryWdup] ++ []

theorem feedback_duplicate_ids_witness :
    ((∀ e ∈ read_all_entries [LogLine.good entryW2], e.id ≠ entryW1.id) ∧
      entryW1.id = entryW1.id ∧ entryWdup.id = entryW1.id ∧
      1 < entryW1.feedback.emails_actually_sent.length) ∧
    ((log_feedback entryW1.id 1 hiThere ("t10").data storeDup).2 = true ∧
      read_all_entries (log_feedback entryW1.id 1 hiThere ("t10").data storeDup).1 =
        read_all_entries [LogLine.good entryW2] ++ [setFeedback entryW1 1 hiThere ("t10").data] ++
          read_all_entries [LogLine.bad ("corrupt").data] ++ [entryWdup] ++
          read_all_entries ([] : List LogLine)) :=
  ⟨⟨by decide, rfl, by decide, by decide⟩,
    feedback_duplicate_ids [LogLine.good entryW2] [LogLine.bad ("corrupt").data] []
      entryW1 entryWdup entryW1.id hiThere ("t10").data 1 storeDup rfl
      (by decide) rfl (by decide) (by decide)⟩

end Outreach
